import Mathlib

/-!
Shallow embedding of `src/code/buffer/buffer.cpp` (class `Buffer`): a
cursor-based byte buffer backed by a resizable contiguous store
(`std::vector<char> buffer_`) with two cursors `readPos_` and `writePos_`.
Bytes are modelled as `Nat`, the backing vector as `List Nat`.

The C++ member functions are translated one-to-one:
* `ReadableBytes / WritableBytes / PrependableBytes` — cursor arithmetic;
* `Retrieve` — asserts `len <= ReadableBytes()` (the assert is modelled as
  an `Option`: `none` is the aborted run);
* `RetrieveAll` — `bzero` of the store plus cursor reset;
* `RetrieveAllToStr` — copies the readable region out, then `RetrieveAll`;
* `HasWritten` — unconditional `writePos_ += len` (no assert in the source);
* `Append` — `EnsureWriteable`, `std::copy` at the write cursor, `HasWritten`;
* `EnsureWriteable` / `MakeSpace_` — growth (`buffer_.resize(writePos_+len+1)`)
  or in-place compaction of the readable region to offset 0;
* `ReadFd` — scatter read into the writable region plus a 65535-byte stack
  scratch buffer; the descriptor is modelled as `Except Nat (List Nat)`:
  `error e` is a failing `readv` with `errno = e`, `ok avail` is a
  descriptor whose pending bytes are `avail` (a ready `readv` transfers
  `min (avail.length) (writable + 65535)` bytes, filling `iov[0]` first);
* `WriteFd` — `write` of the readable region; `ok accept` is a descriptor
  accepting up to `accept` bytes, `error e` a failing `write`.
-/

namespace WebServer

/-- State of the C++ `Buffer` object: backing store and the two cursors. -/
structure Buffer where
  buffer_ : List Nat
  readPos_ : Nat
  writePos_ : Nat
deriving DecidableEq, Repr

/-- `Buffer::Buffer(int initBuffSize)`: zero-initialized vector, cursors 0. -/
def mkBuffer (initBuffSize : Nat) : Buffer :=
  ⟨List.replicate initBuffSize 0, 0, 0⟩

/-- `Buffer::ReadableBytes()`: `writePos_ - readPos_`. -/
def ReadableBytes (b : Buffer) : Nat := b.writePos_ - b.readPos_

/-- `Buffer::WritableBytes()`: `buffer_.size() - writePos_`. -/
def WritableBytes (b : Buffer) : Nat := b.buffer_.length - b.writePos_

/-- `Buffer::PrependableBytes()`: `readPos_`. -/
def PrependableBytes (b : Buffer) : Nat := b.readPos_

/-- The bytes of the readable region `[readPos_, writePos_)`
(what `Peek()` exposes for `ReadableBytes()` bytes). -/
def readableContent (b : Buffer) : List Nat :=
  (b.buffer_.drop b.readPos_).take (ReadableBytes b)

/-- `Buffer::Retrieve(len)`: `assert(len <= ReadableBytes())`, then
`readPos_ += len`.  `none` is the assertion failure (aborted run). -/
def Retrieve (b : Buffer) (len : Nat) : Option Buffer :=
  if len ≤ ReadableBytes b then
    some { b with readPos_ := b.readPos_ + len }
  else
    none

/-- `Buffer::RetrieveAll()`: `bzero` the whole store, reset both cursors. -/
def RetrieveAll (b : Buffer) : Buffer :=
  ⟨List.replicate b.buffer_.length 0, 0, 0⟩

/-- `Buffer::RetrieveAllToStr()`: copy the readable region out as a string,
then `RetrieveAll()`; returns the extracted bytes and the new state. -/
def RetrieveAllToStr (b : Buffer) : List Nat × Buffer :=
  (readableContent b, RetrieveAll b)

/-- `Buffer::HasWritten(len)`: `writePos_ += len`, unconditionally —
the source performs no check. -/
def HasWritten (b : Buffer) (len : Nat) : Buffer :=
  { b with writePos_ := b.writePos_ + len }

/-- `std::copy(data, data + data.length, l-begin + pos)`: overwrite `l`
starting at index `pos` with `data`. -/
def writeAt (l : List Nat) (pos : Nat) (data : List Nat) : List Nat :=
  l.take pos ++ data ++ l.drop (pos + data.length)

/-- `std::vector::resize(n)`: truncate to `n` or pad with zero bytes. -/
def resize (l : List Nat) (n : Nat) : List Nat :=
  l.take n ++ List.replicate (n - l.length) 0

/-- `Buffer::MakeSpace_(len)`: grow the store to `writePos_ + len + 1`
when even compaction cannot free `len` bytes; otherwise compact the
readable region down to offset 0 and reset the cursors. -/
def MakeSpace_ (b : Buffer) (len : Nat) : Buffer :=
  if WritableBytes b + PrependableBytes b < len then
    { b with buffer_ := resize b.buffer_ (b.writePos_ + len + 1) }
  else
    { buffer_ := writeAt b.buffer_ 0 (readableContent b),
      readPos_ := 0,
      writePos_ := ReadableBytes b }

/-- `Buffer::EnsureWriteable(len)`: call `MakeSpace_` when the writable
region is too small. -/
def EnsureWriteable (b : Buffer) (len : Nat) : Buffer :=
  if WritableBytes b < len then MakeSpace_ b len else b

/-- `Buffer::Append(str, len)`: `EnsureWriteable(len)`, `std::copy` the
bytes to `BeginWrite()`, then `HasWritten(len)`. -/
def Append (b : Buffer) (data : List Nat) : Buffer :=
  let b1 := EnsureWriteable b data.length
  HasWritten { b1 with buffer_ := writeAt b1.buffer_ b1.writePos_ data }
    data.length

/-- `Buffer::ReadFd(fd, saveErrno)`: one `readv` into the writable region
(`iov[0]`) and a 65535-byte scratch array (`iov[1]`).  On error the errno
is saved and nothing changes; when the transfer fits the writable region,
`writePos_ += len`; otherwise `writePos_ = buffer_.size()` and the
overflow captured in the scratch array is `Append`ed. -/
def ReadFd (b : Buffer) (input : Except Nat (List Nat)) :
    Buffer × Except Nat Nat :=
  match input with
  | Except.error e => (b, Except.error e)
  | Except.ok avail =>
    let writable := WritableBytes b
    let data := avail.take (writable + 65535)
    let len := data.length
    if len ≤ writable then
      ({ b with buffer_ := writeAt b.buffer_ b.writePos_ data,
                writePos_ := b.writePos_ + len },
       Except.ok len)
    else
      (Append { b with buffer_ := writeAt b.buffer_ b.writePos_
                                    (data.take writable),
                       writePos_ := b.buffer_.length }
              (data.drop writable),
       Except.ok len)

/-- `Buffer::WriteFd(fd, saveErrno)`: one `write` of the readable region.
On error the errno is saved and nothing changes; on success the
descriptor took `len = min accept (ReadableBytes())` bytes and
`readPos_ += len`. -/
def WriteFd (b : Buffer) (res : Except Nat Nat) :
    Buffer × Except Nat Nat :=
  match res with
  | Except.error e => (b, Except.error e)
  | Except.ok accept =>
    let len := min accept (ReadableBytes b)
    ({ b with readPos_ := b.readPos_ + len }, Except.ok len)

/-- One public buffer operation of the append/consume interface. -/
inductive BufOp where
  | append (data : List Nat) : BufOp
  | consume (len : Nat) : BufOp
deriving DecidableEq, Repr

/-- Run one operation (`consume` is `Retrieve`, whose assert may abort). -/
def applyOp (b : Buffer) : BufOp → Option Buffer
  | BufOp.append data => some (Append b data)
  | BufOp.consume len => Retrieve b len

/-- Run a sequence of operations, aborting at the first failed assert. -/
def applyOps (b : Buffer) : List BufOp → Option Buffer
  | [] => some b
  | op :: rest =>
    match applyOp b op with
    | none => none
    | some b1 => applyOps b1 rest

/-- Total number of bytes appended by a sequence of operations. -/
def totalAppended : List BufOp → Nat
  | [] => 0
  | BufOp.append data :: rest => data.length + totalAppended rest
  | BufOp.consume _ :: rest => totalAppended rest

/-- Total number of bytes consumed by a sequence of operations. -/
def totalConsumed : List BufOp → Nat
  | [] => 0
  | BufOp.append _ :: rest => totalConsumed rest
  | BufOp.consume len :: rest => len + totalConsumed rest

/-- Well-formedness of a buffer state: `readPos_ ≤ writePos_ ≤ size`.
Holds for every state reachable through the public interface. -/
def WF (b : Buffer) : Prop :=
  b.readPos_ ≤ b.writePos_ ∧ b.writePos_ ≤ b.buffer_.length

instance (b : Buffer) : Decidable (WF b) :=
  inferInstanceAs (Decidable (_ ∧ _))

example : Append (mkBuffer 10) [1, 2, 3] =
    ⟨[1, 2, 3, 0, 0, 0, 0, 0, 0, 0], 0, 3⟩ := by decide

example : applyOps (mkBuffer 10) [BufOp.append [1, 2, 3], BufOp.consume 1] =
    some ⟨[1, 2, 3, 0, 0, 0, 0, 0, 0, 0], 1, 3⟩ := by decide

/-! ### Helper lemmas -/

theorem readableContent_length {b : Buffer} (hw : WF b) :
    (readableContent b).length = ReadableBytes b := by
  obtain ⟨h1, h2⟩ := hw
  simp [readableContent, ReadableBytes, List.length_take, List.length_drop]
  omega

theorem writeAt_length_of_le {l data : List Nat} {pos : Nat}
    (h : pos + data.length ≤ l.length) :
    (writeAt l pos data).length = l.length := by
  simp [writeAt, List.length_take, List.length_drop]
  omega

theorem writeAt_length_ge (l data : List Nat) (pos : Nat) :
    l.length ≤ (writeAt l pos data).length := by
  simp [writeAt, List.length_take, List.length_drop]
  omega

theorem MakeSpace_grow {b : Buffer} {len : Nat}
    (h : WritableBytes b + PrependableBytes b < len) :
    MakeSpace_ b len =
      { b with buffer_ := b.buffer_ ++
          List.replicate (b.writePos_ + len + 1 - b.buffer_.length) 0 } := by
  have hn : b.buffer_.length ≤ b.writePos_ + len + 1 := by
    simp [WritableBytes, PrependableBytes] at h; omega
  simp [MakeSpace_, h, resize, List.take_of_length_le hn]

theorem MakeSpace_compact {b : Buffer} {len : Nat} (hw : WF b)
    (h : ¬ WritableBytes b + PrependableBytes b < len) :
    MakeSpace_ b len =
      ⟨readableContent b ++ b.buffer_.drop (ReadableBytes b), 0,
       ReadableBytes b⟩ := by
  simp [MakeSpace_, h, writeAt, readableContent_length hw]

theorem length_MakeSpace_ge (b : Buffer) (len : Nat) :
    b.buffer_.length ≤ (MakeSpace_ b len).buffer_.length := by
  by_cases h : WritableBytes b + PrependableBytes b < len
  · rw [MakeSpace_grow h]
    simp
  · simp only [MakeSpace_, h, if_false]
    exact writeAt_length_ge b.buffer_ (readableContent b) 0

theorem MakeSpace_WF {b : Buffer} (hw : WF b) (len : Nat) :
    WF (MakeSpace_ b len) := by
  obtain ⟨h1, h2⟩ := hw
  by_cases h : WritableBytes b + PrependableBytes b < len
  · rw [MakeSpace_grow h]
    refine ⟨h1, ?_⟩
    simp [List.length_replicate]
    simp [WritableBytes, PrependableBytes] at h
    omega
  · rw [MakeSpace_compact ⟨h1, h2⟩ h]
    refine ⟨Nat.zero_le _, ?_⟩
    simp [readableContent_length (b := b) ⟨h1, h2⟩, List.length_drop,
      ReadableBytes]

theorem ReadableBytes_MakeSpace {b : Buffer} (hw : WF b) (len : Nat) :
    ReadableBytes (MakeSpace_ b len) = ReadableBytes b := by
  by_cases h : WritableBytes b + PrependableBytes b < len
  · rw [MakeSpace_grow h]
    simp [ReadableBytes]
  · rw [MakeSpace_compact hw h]
    simp [ReadableBytes]

theorem WritableBytes_MakeSpace {b : Buffer} (hw : WF b) (len : Nat) :
    len ≤ WritableBytes (MakeSpace_ b len) := by
  obtain ⟨h1, h2⟩ := hw
  by_cases h : WritableBytes b + PrependableBytes b < len
  · rw [MakeSpace_grow h]
    simp [WritableBytes, List.length_append, List.length_replicate]
    simp [WritableBytes, PrependableBytes] at h
    omega
  · rw [MakeSpace_compact ⟨h1, h2⟩ h]
    simp [WritableBytes, List.length_append, List.length_drop,
      readableContent_length (b := b) ⟨h1, h2⟩]
    simp [WritableBytes, PrependableBytes, ReadableBytes] at h ⊢
    omega

theorem readableContent_MakeSpace {b : Buffer} (hw : WF b) (len : Nat) :
    readableContent (MakeSpace_ b len) = readableContent b := by
  obtain ⟨h1, h2⟩ := hw
  by_cases h : WritableBytes b + PrependableBytes b < len
  · rw [MakeSpace_grow h]
    simp only [readableContent, ReadableBytes]
    rw [List.drop_append_of_le_length (by omega),
      List.take_append_of_le_length (by simp [List.length_drop]; omega)]
  · rw [MakeSpace_compact ⟨h1, h2⟩ h]
    have hc := readableContent_length (b := b) ⟨h1, h2⟩
    generalize hg : readableContent b = c at hc ⊢
    simp only [readableContent, ReadableBytes, Nat.sub_zero, List.drop_zero]
      at hc ⊢
    rw [← hc, List.take_left]

theorem EnsureWriteable_WF {b : Buffer} (hw : WF b) (len : Nat) :
    WF (EnsureWriteable b len) := by
  unfold EnsureWriteable
  split
  · exact MakeSpace_WF hw len
  · exact hw

theorem WritableBytes_EnsureWriteable {b : Buffer} (hw : WF b) (len : Nat) :
    len ≤ WritableBytes (EnsureWriteable b len) := by
  unfold EnsureWriteable
  split
  · exact WritableBytes_MakeSpace hw len
  · omega

theorem ReadableBytes_EnsureWriteable {b : Buffer} (hw : WF b) (len : Nat) :
    ReadableBytes (EnsureWriteable b len) = ReadableBytes b := by
  unfold EnsureWriteable
  split
  · exact ReadableBytes_MakeSpace hw len
  · rfl

theorem readableContent_EnsureWriteable {b : Buffer} (hw : WF b) (len : Nat) :
    readableContent (EnsureWriteable b len) = readableContent b := by
  unfold EnsureWriteable
  split
  · exact readableContent_MakeSpace hw len
  · rfl

theorem length_EnsureWriteable_ge (b : Buffer) (len : Nat) :
    b.buffer_.length ≤ (EnsureWriteable b len).buffer_.length := by
  unfold EnsureWriteable
  split
  · exact length_MakeSpace_ge b len
  · exact Nat.le_refl _

theorem Append_eq (b : Buffer) (data : List Nat) :
    Append b data =
      ⟨writeAt (EnsureWriteable b data.length).buffer_
          (EnsureWriteable b data.length).writePos_ data,
       (EnsureWriteable b data.length).readPos_,
       (EnsureWriteable b data.length).writePos_ + data.length⟩ := rfl

theorem Append_WF {b : Buffer} (hw : WF b) (data : List Nat) :
    WF (Append b data) := by
  have h2 := WritableBytes_EnsureWriteable hw data.length
  obtain ⟨ha, hb⟩ := EnsureWriteable_WF hw data.length
  simp only [WritableBytes] at h2
  rw [Append_eq]
  refine ⟨by dsimp only; omega, ?_⟩
  dsimp only
  rw [writeAt_length_of_le (by omega)]
  omega

theorem ReadableBytes_Append {b : Buffer} (hw : WF b) (data : List Nat) :
    ReadableBytes (Append b data) = ReadableBytes b + data.length := by
  have h3 := ReadableBytes_EnsureWriteable hw data.length
  obtain ⟨ha, hb⟩ := EnsureWriteable_WF hw data.length
  rw [Append_eq]
  simp only [ReadableBytes] at h3 ⊢
  omega

theorem readableContent_Append {b : Buffer} (hw : WF b) (data : List Nat) :
    readableContent (Append b data) = readableContent b ++ data := by
  have h2 := WritableBytes_EnsureWriteable hw data.length
  have h3 := readableContent_EnsureWriteable hw data.length
  obtain ⟨ha, hb⟩ := EnsureWriteable_WF hw data.length
  rw [← h3, Append_eq]
  set b1 := EnsureWriteable b data.length with hb1
  simp only [WritableBytes] at h2
  simp only [readableContent, ReadableBytes, writeAt]
  have htl : (b1.buffer_.take b1.writePos_).length = b1.writePos_ := by
    simp [List.length_take]; omega
  rw [List.append_assoc,
    List.drop_append_of_le_length (by omega : b1.readPos_ ≤
      (b1.buffer_.take b1.writePos_).length)]
  have hstep : b1.writePos_ + data.length - b1.readPos_ =
      ((b1.buffer_.take b1.writePos_).drop b1.readPos_).length
        + data.length := by
    simp [List.length_drop, htl]; omega
  rw [hstep, List.take_append, List.take_left, List.drop_take]

theorem length_Append_ge (b : Buffer) (data : List Nat) :
    b.buffer_.length ≤ (Append b data).buffer_.length := by
  refine Nat.le_trans (length_EnsureWriteable_ge b data.length) ?_
  rw [Append_eq]
  exact writeAt_length_ge _ _ _

theorem Retrieve_eq_some {b b' : Buffer} {len : Nat}
    (h : Retrieve b len = some b') :
    len ≤ ReadableBytes b ∧ b' = { b with readPos_ := b.readPos_ + len } := by
  by_cases hc : len ≤ ReadableBytes b
  · refine ⟨hc, ?_⟩
    simpa [Retrieve, hc] using h.symm
  · simp [Retrieve, hc] at h

theorem applyOps_invariant : ∀ (ops : List BufOp) (b b' : Buffer),
    WF b → applyOps b ops = some b' →
    WF b' ∧ ReadableBytes b' + totalConsumed ops =
      ReadableBytes b + totalAppended ops
  | [], b, b', hw, h => by
    simp only [applyOps, Option.some.injEq] at h
    subst h
    simp [totalConsumed, totalAppended, hw]
  | BufOp.append data :: rest, b, b', hw, h => by
    simp only [applyOps, applyOp] at h
    obtain ⟨ih1, ih2⟩ :=
      applyOps_invariant rest (Append b data) b' (Append_WF hw data) h
    refine ⟨ih1, ?_⟩
    rw [ReadableBytes_Append hw data] at ih2
    simp only [totalConsumed, totalAppended]
    omega
  | BufOp.consume len :: rest, b, b', hw, h => by
    simp only [applyOps, applyOp] at h
    cases hr : Retrieve b len with
    | none => rw [hr] at h; exact absurd h (by simp)
    | some b1 =>
      rw [hr] at h
      obtain ⟨hle, hb1⟩ := Retrieve_eq_some hr
      obtain ⟨hw1, hw2⟩ := hw
      simp only [ReadableBytes] at hle
      have hwfb1 : WF b1 := by
        subst hb1
        exact ⟨(by omega : b.readPos_ + len ≤ b.writePos_), hw2⟩
      obtain ⟨ih1, ih2⟩ := applyOps_invariant rest b1 b' hwfb1 h
      refine ⟨ih1, ?_⟩
      subst hb1
      simp only [ReadableBytes, totalConsumed, totalAppended] at ih2 ⊢
      omega

/-! ### Claims -/

/-- C1: for every sequence of `Append`/`Retrieve` calls whose asserts all
pass, `ReadableBytes + PrependableBytes + WritableBytes = buffer_.length`
holds afterwards, and `ReadableBytes` equals the total appended length
minus the total consumed length. -/
theorem append_consume_accounting (cap : Nat) (ops : List BufOp)
    (b' : Buffer) (h : applyOps (mkBuffer cap) ops = some b') :
    ReadableBytes b' + PrependableBytes b' + WritableBytes b' =
      b'.buffer_.length ∧
    ReadableBytes b' + totalConsumed ops = totalAppended ops := by
  have h0 : WF (mkBuffer cap) := ⟨Nat.le_refl 0, Nat.zero_le _⟩
  obtain ⟨⟨h1, h2⟩, h3⟩ := applyOps_invariant ops (mkBuffer cap) b' h0 h
  constructor
  · simp only [ReadableBytes, PrependableBytes, WritableBytes]
    omega
  · simpa [ReadableBytes, mkBuffer] using h3

theorem append_consume_accounting_witness :
    ReadableBytes ⟨[1, 2, 3, 0, 0, 0, 0, 0, 0, 0], 1, 3⟩ +
      PrependableBytes ⟨[1, 2, 3, 0, 0, 0, 0, 0, 0, 0], 1, 3⟩ +
      WritableBytes ⟨[1, 2, 3, 0, 0, 0, 0, 0, 0, 0], 1, 3⟩ =
      (⟨[1, 2, 3, 0, 0, 0, 0, 0, 0, 0], 1, 3⟩ : Buffer).buffer_.length ∧
    ReadableBytes ⟨[1, 2, 3, 0, 0, 0, 0, 0, 0, 0], 1, 3⟩ +
      totalConsumed [BufOp.append [1, 2, 3], BufOp.consume 1] =
      totalAppended [BufOp.append [1, 2, 3], BufOp.consume 1] :=
  append_consume_accounting 10 [BufOp.append [1, 2, 3], BufOp.consume 1]
    ⟨[1, 2, 3, 0, 0, 0, 0, 0, 0, 0], 1, 3⟩ (by decide)

/-- C2: when even compaction cannot free `len` bytes
(`WritableBytes + PrependableBytes < len`), `MakeSpace_` grows the store
to exactly `writePos_ + len + 1` bytes, keeping every existing byte at
its offset and both cursors unchanged; otherwise it compacts: the
readable region moves to offset 0, `readPos_` becomes 0, `writePos_`
becomes the readable length, the readable content and the store size are
unchanged. -/
theorem makeSpace_growth_or_compaction (b : Buffer) (hw : WF b)
    (len : Nat) :
    (WritableBytes b + PrependableBytes b < len →
      (MakeSpace_ b len).buffer_ = b.buffer_ ++
        List.replicate (b.writePos_ + len + 1 - b.buffer_.length) 0 ∧
      (MakeSpace_ b len).buffer_.length = b.writePos_ + len + 1 ∧
      b.buffer_.length < (MakeSpace_ b len).buffer_.length ∧
      (MakeSpace_ b len).readPos_ = b.readPos_ ∧
      (MakeSpace_ b len).writePos_ = b.writePos_) ∧
    (¬ WritableBytes b + PrependableBytes b < len →
      (MakeSpace_ b len).readPos_ = 0 ∧
      (MakeSpace_ b len).writePos_ = ReadableBytes b ∧
      readableContent (MakeSpace_ b len) = readableContent b ∧
      (MakeSpace_ b len).buffer_.length = b.buffer_.length) := by
  obtain ⟨hw1, hw2⟩ := hw
  constructor
  · intro h
    rw [MakeSpace_grow h]
    simp only [WritableBytes, PrependableBytes] at h
    refine ⟨rfl, ?_, ?_, rfl, rfl⟩
    · simp [List.length_append, List.length_replicate]
      omega
    · simp [List.length_append, List.length_replicate]
      omega
  · intro h
    refine ⟨?_, ?_, readableContent_MakeSpace ⟨hw1, hw2⟩ len, ?_⟩
    · rw [MakeSpace_compact ⟨hw1, hw2⟩ h]
    · rw [MakeSpace_compact ⟨hw1, hw2⟩ h]
    · rw [MakeSpace_compact ⟨hw1, hw2⟩ h]
      simp [List.length_append, List.length_drop,
        readableContent_length (b := b) ⟨hw1, hw2⟩, ReadableBytes]
      omega

theorem makeSpace_growth_or_compaction_witness :
    (MakeSpace_ ⟨[1, 2], 1, 2⟩ 5).buffer_ =
      (⟨[1, 2], 1, 2⟩ : Buffer).buffer_ ++
        List.replicate
          ((⟨[1, 2], 1, 2⟩ : Buffer).writePos_ + 5 + 1 -
            (⟨[1, 2], 1, 2⟩ : Buffer).buffer_.length) 0 ∧
    (MakeSpace_ ⟨[1, 2], 1, 2⟩ 5).buffer_.length =
      (⟨[1, 2], 1, 2⟩ : Buffer).writePos_ + 5 + 1 ∧
    (⟨[1, 2], 1, 2⟩ : Buffer).buffer_.length <
      (MakeSpace_ ⟨[1, 2], 1, 2⟩ 5).buffer_.length ∧
    (MakeSpace_ ⟨[1, 2], 1, 2⟩ 5).readPos_ =
      (⟨[1, 2], 1, 2⟩ : Buffer).readPos_ ∧
    (MakeSpace_ ⟨[1, 2], 1, 2⟩ 5).writePos_ =
      (⟨[1, 2], 1, 2⟩ : Buffer).writePos_ :=
  (makeSpace_growth_or_compaction ⟨[1, 2], 1, 2⟩ (by decide) 5).1
    (by decide)

/-- C5 counterexample: with 0 writable bytes, `HasWritten 5` is silently
accepted — the call returns a normally-updated state whose write cursor
lies past the end of the store, instead of failing fast. -/
theorem hasWritten_unchecked_counterexample :
    WritableBytes ⟨[0, 0, 0, 0], 0, 4⟩ < 5 ∧
    HasWritten ⟨[0, 0, 0, 0], 0, 4⟩ 5 = ⟨[0, 0, 0, 0], 0, 9⟩ ∧
    (HasWritten ⟨[0, 0, 0, 0], 0, 4⟩ 5).buffer_.length <
      (HasWritten ⟨[0, 0, 0, 0], 0, 4⟩ 5).writePos_ := by
  decide

/-- C5 amended: `HasWritten len` performs no precondition check at all —
it unconditionally advances `writePos_` by `len` (even past
`WritableBytes`) and changes nothing else. -/
theorem hasWritten_advances_unconditionally (b : Buffer) (len : Nat) :
    (HasWritten b len).writePos_ = b.writePos_ + len ∧
    (HasWritten b len).readPos_ = b.readPos_ ∧
    (HasWritten b len).buffer_ = b.buffer_ :=
  ⟨rfl, rfl, rfl⟩

/-- C6: when the underlying `readv`/`write` fails, `ReadFd` and `WriteFd`
hand the saved errno back with the error result and leave the buffer
state (store and both cursors) completely unchanged. -/
theorem fd_error_preserves_state (b : Buffer) (e : Nat) :
    ReadFd b (Except.error e) = (b, Except.error e) ∧
    WriteFd b (Except.error e) = (b, Except.error e) :=
  ⟨rfl, rfl⟩

/-- C3 counterexample: on an empty buffer of capacity 10, appending 11
bytes (more than `WritableBytes + PrependableBytes = 10`) leaves only 1
writable byte afterwards — the growth resizes to `writePos_ + len + 1`,
so `WritableBytes ≥ len` does not hold once the cursor has advanced. -/
theorem growth_writable_counterexample :
    WritableBytes (mkBuffer 10) + PrependableBytes (mkBuffer 10) <
      (List.replicate 11 1).length ∧
    ¬ (List.replicate 11 1).length ≤
        WritableBytes (Append (mkBuffer 10) (List.replicate 11 1)) := by
  decide

/-- C3 amended: when `data.length` exceeds
`WritableBytes + PrependableBytes`, the internal `EnsureWriteable` step
makes at least `data.length` bytes writable (so the copy is safe), the
completed `Append` leaves exactly 1 writable byte (the one-byte growth
margin), and all prior readable content is preserved, extended by the
appended bytes. -/
theorem growth_amended (b : Buffer) (hw : WF b) (data : List Nat)
    (h : WritableBytes b + PrependableBytes b < data.length) :
    data.length ≤ WritableBytes (EnsureWriteable b data.length) ∧
    WritableBytes (Append b data) = 1 ∧
    readableContent (Append b data) = readableContent b ++ data := by
  refine ⟨WritableBytes_EnsureWriteable hw data.length, ?_,
    readableContent_Append hw data⟩
  obtain ⟨hw1, hw2⟩ := hw
  have hwe : WritableBytes b < data.length := by
    simp only [WritableBytes, PrependableBytes] at h ⊢
    omega
  have hE : EnsureWriteable b data.length = MakeSpace_ b data.length := by
    simp [EnsureWriteable, hwe]
  rw [Append_eq, hE, MakeSpace_grow h]
  simp only [WritableBytes, PrependableBytes] at h ⊢
  rw [writeAt_length_of_le
    (by simp [List.length_append, List.length_replicate]; omega)]
  simp [List.length_append, List.length_replicate]
  omega

theorem growth_amended_witness :
    (List.replicate 11 1).length ≤
      WritableBytes
        (EnsureWriteable (mkBuffer 10) (List.replicate 11 1).length) ∧
    WritableBytes (Append (mkBuffer 10) (List.replicate 11 1)) = 1 ∧
    readableContent (Append (mkBuffer 10) (List.replicate 11 1)) =
      readableContent (mkBuffer 10) ++ List.replicate 11 1 :=
  growth_amended (mkBuffer 10) (by decide) (List.replicate 11 1) (by decide)

/-- C4 counterexample: capacity 10, `Append "hello"`, `Retrieve 2`, then
`Append "ab"` — the final read cursor is 2, not 0, so the sequence did
not trigger compaction as the claim states. -/
theorem scenario_compaction_counterexample :
    Retrieve (Append (mkBuffer 10) [104, 101, 108, 108, 111]) 2 =
      some ⟨[104, 101, 108, 108, 111, 0, 0, 0, 0, 0], 2, 5⟩ ∧
    (Append ⟨[104, 101, 108, 108, 111, 0, 0, 0, 0, 0], 2, 5⟩
      [97, 98]).readPos_ = 2 ∧
    ¬ (Append ⟨[104, 101, 108, 108, 111, 0, 0, 0, 0, 0], 2, 5⟩
      [97, 98]).readPos_ = 0 := by
  decide

/-- C4 amended: in the capacity-10 scenario `Append "hello"`,
`Retrieve 2`, `Append "ab"`, the 2-byte append fits the 5 writable bytes,
so no compaction occurs (`EnsureWriteable` is the identity there): the
read cursor stays 2 and the readable content equals `"lloab"`. -/
theorem scenario_no_compaction_amended :
    Retrieve (Append (mkBuffer 10) [104, 101, 108, 108, 111]) 2 =
      some ⟨[104, 101, 108, 108, 111, 0, 0, 0, 0, 0], 2, 5⟩ ∧
    EnsureWriteable ⟨[104, 101, 108, 108, 111, 0, 0, 0, 0, 0], 2, 5⟩ 2 =
      ⟨[104, 101, 108, 108, 111, 0, 0, 0, 0, 0], 2, 5⟩ ∧
    (Append ⟨[104, 101, 108, 108, 111, 0, 0, 0, 0, 0], 2, 5⟩
      [97, 98]).readPos_ = 2 ∧
    readableContent (Append ⟨[104, 101, 108, 108, 111, 0, 0, 0, 0, 0], 2, 5⟩
      [97, 98]) = [108, 108, 111, 97, 98] := by
  decide

/-- C8: appending `X` and immediately extracting with `RetrieveAllToStr`
returns the prior readable content followed by `X` (exactly `X` on an
empty buffer); afterwards `ReadableBytes = 0` and `WritableBytes` equals
the full store size, which `RetrieveAll` kept unchanged. -/
theorem append_retrieveAll_roundtrip (b : Buffer) (hw : WF b)
    (X : List Nat) :
    (RetrieveAllToStr (Append b X)).1 = readableContent b ++ X ∧
    ReadableBytes (RetrieveAllToStr (Append b X)).2 = 0 ∧
    WritableBytes (RetrieveAllToStr (Append b X)).2 =
      (RetrieveAllToStr (Append b X)).2.buffer_.length ∧
    (RetrieveAllToStr (Append b X)).2.buffer_.length =
      (Append b X).buffer_.length ∧
    (ReadableBytes b = 0 → (RetrieveAllToStr (Append b X)).1 = X) := by
  have hc : (RetrieveAllToStr (Append b X)).1 = readableContent b ++ X :=
    readableContent_Append hw X
  refine ⟨hc, rfl, ?_, ?_, ?_⟩
  · simp [RetrieveAllToStr, RetrieveAll, WritableBytes,
      List.length_replicate]
  · simp [RetrieveAllToStr, RetrieveAll, List.length_replicate]
  · intro h0
    have hnil : (readableContent b).length = 0 := by
      rw [readableContent_length hw, h0]
    rw [hc, List.length_eq_zero.mp hnil, List.nil_append]

theorem append_retrieveAll_roundtrip_witness :
    (RetrieveAllToStr (Append ⟨[1, 2, 0, 0], 1, 2⟩ [3])).1 =
      readableContent ⟨[1, 2, 0, 0], 1, 2⟩ ++ [3] ∧
    ReadableBytes (RetrieveAllToStr (Append ⟨[1, 2, 0, 0], 1, 2⟩ [3])).2 =
      0 ∧
    WritableBytes (RetrieveAllToStr (Append ⟨[1, 2, 0, 0], 1, 2⟩ [3])).2 =
      (RetrieveAllToStr
        (Append ⟨[1, 2, 0, 0], 1, 2⟩ [3])).2.buffer_.length ∧
    (RetrieveAllToStr
        (Append ⟨[1, 2, 0, 0], 1, 2⟩ [3])).2.buffer_.length =
      (Append ⟨[1, 2, 0, 0], 1, 2⟩ [3]).buffer_.length ∧
    (ReadableBytes ⟨[1, 2, 0, 0], 1, 2⟩ = 0 →
      (RetrieveAllToStr (Append ⟨[1, 2, 0, 0], 1, 2⟩ [3])).1 = [3]) :=
  append_retrieveAll_roundtrip ⟨[1, 2, 0, 0], 1, 2⟩ (by decide) [3]

theorem ReadFd_ok_snd (b : Buffer) (avail : List Nat) :
    (ReadFd b (Except.ok avail)).2 =
      Except.ok (avail.take (WritableBytes b + 65535)).length := by
  unfold ReadFd
  dsimp only
  split <;> rfl

theorem ReadFd_ok_overflow_eq {b : Buffer} {avail : List Nat}
    (h : ¬ (avail.take (WritableBytes b + 65535)).length ≤
          WritableBytes b) :
    ReadFd b (Except.ok avail) =
      (Append { b with
          buffer_ := writeAt b.buffer_ b.writePos_
            ((avail.take (WritableBytes b + 65535)).take (WritableBytes b)),
          writePos_ := b.buffer_.length }
        ((avail.take (WritableBytes b + 65535)).drop (WritableBytes b)),
       Except.ok (avail.take (WritableBytes b + 65535)).length) := by
  unfold ReadFd
  dsimp only
  rw [if_neg h]

/-- C10: one successful `ReadFd` never transfers more than
`WritableBytes + 65535` bytes — the scatter destinations are the
writable region and the fixed 65535-byte stack scratch array. -/
theorem readFd_transfer_bound (b : Buffer) (avail : List Nat) (n : Nat)
    (h : (ReadFd b (Except.ok avail)).2 = Except.ok n) :
    n ≤ WritableBytes b + 65535 := by
  rw [ReadFd_ok_snd] at h
  have hn : n = (avail.take (WritableBytes b + 65535)).length := by
    exact (Except.ok.injEq _ _ ▸ congrArg id h).symm ▸ rfl
  subst hn
  simp [List.length_take]

theorem readFd_transfer_bound_witness :
    (3 : Nat) ≤ WritableBytes (mkBuffer 2) + 65535 :=
  readFd_transfer_bound (mkBuffer 2) [1, 2, 3] 3 (by rfl)

/-- C7: if a ready descriptor hands `ReadFd` exactly
`WritableBytes + N` bytes with `0 < N ≤ 65535`, then the result state is
obtained by first setting `writePos_` to the store size (writable region
fully consumed) and `Append`ing the `N` overflow bytes captured in the
scratch array; the readable length grows by exactly `WritableBytes + N`
and the last `N` readable bytes are the overflow bytes. -/
theorem readFd_overflow (b : Buffer) (hw : WF b) (avail : List Nat)
    (N : Nat) (hN : 0 < N) (hNle : N ≤ 65535)
    (hlen : avail.length = WritableBytes b + N) :
    (ReadFd b (Except.ok avail)).1 =
      Append { b with
          buffer_ := writeAt b.buffer_ b.writePos_
            (avail.take (WritableBytes b)),
          writePos_ := b.buffer_.length }
        (avail.drop (WritableBytes b)) ∧
    (ReadFd b (Except.ok avail)).2 = Except.ok (WritableBytes b + N) ∧
    ReadableBytes (ReadFd b (Except.ok avail)).1 =
      ReadableBytes b + (WritableBytes b + N) ∧
    (readableContent (ReadFd b (Except.ok avail)).1).drop
        (ReadableBytes b + WritableBytes b) =
      avail.drop (WritableBytes b) := by
  obtain ⟨hw1, hw2⟩ := hw
  have hdata : avail.take (WritableBytes b + 65535) = avail :=
    List.take_of_length_le (by omega)
  have hcond : ¬ (avail.take (WritableBytes b + 65535)).length ≤
      WritableBytes b := by
    rw [hdata]; omega
  have heq := ReadFd_ok_overflow_eq hcond
  rw [hdata] at heq
  have hmidlen : ((writeAt b.buffer_ b.writePos_
      (avail.take (WritableBytes b)))).length = b.buffer_.length := by
    apply writeAt_length_of_le
    simp only [List.length_take, WritableBytes]
    omega
  have hwmid : WF { b with
      buffer_ := writeAt b.buffer_ b.writePos_
        (avail.take (WritableBytes b)),
      writePos_ := b.buffer_.length } := by
    refine ⟨?_, ?_⟩
    · exact Nat.le_trans hw1 (Nat.le_trans hw2 (Nat.le_refl _))
    · exact Nat.le_of_eq hmidlen.symm
  have hovlen : (avail.drop (WritableBytes b)).length = N := by
    simp only [List.length_drop, WritableBytes] at hlen ⊢
    omega
  have hRBmid : ReadableBytes { b with
      buffer_ := writeAt b.buffer_ b.writePos_
        (avail.take (WritableBytes b)),
      writePos_ := b.buffer_.length } =
      ReadableBytes b + WritableBytes b := by
    simp only [ReadableBytes, WritableBytes]
    omega
  refine ⟨by rw [heq], by rw [heq, hlen], ?_, ?_⟩
  · rw [heq]
    dsimp only
    rw [ReadableBytes_Append hwmid, hRBmid, hovlen]
    omega
  · rw [heq]
    dsimp only
    rw [readableContent_Append hwmid]
    rw [List.drop_left' (by rw [readableContent_length hwmid, hRBmid])]

theorem readFd_overflow_witness :
    (ReadFd ⟨[5, 6, 0, 0], 1, 2⟩ (Except.ok [7, 8, 9])).1 =
      Append { (⟨[5, 6, 0, 0], 1, 2⟩ : Buffer) with
          buffer_ := writeAt (⟨[5, 6, 0, 0], 1, 2⟩ : Buffer).buffer_
            (⟨[5, 6, 0, 0], 1, 2⟩ : Buffer).writePos_
            ([7, 8, 9].take (WritableBytes ⟨[5, 6, 0, 0], 1, 2⟩)),
          writePos_ := (⟨[5, 6, 0, 0], 1, 2⟩ : Buffer).buffer_.length }
        ([7, 8, 9].drop (WritableBytes ⟨[5, 6, 0, 0], 1, 2⟩)) ∧
    (ReadFd ⟨[5, 6, 0, 0], 1, 2⟩ (Except.ok [7, 8, 9])).2 =
      Except.ok (WritableBytes ⟨[5, 6, 0, 0], 1, 2⟩ + 1) ∧
    ReadableBytes (ReadFd ⟨[5, 6, 0, 0], 1, 2⟩ (Except.ok [7, 8, 9])).1 =
      ReadableBytes ⟨[5, 6, 0, 0], 1, 2⟩ +
        (WritableBytes ⟨[5, 6, 0, 0], 1, 2⟩ + 1) ∧
    (readableContent
        (ReadFd ⟨[5, 6, 0, 0], 1, 2⟩ (Except.ok [7, 8, 9])).1).drop
        (ReadableBytes ⟨[5, 6, 0, 0], 1, 2⟩ +
          WritableBytes ⟨[5, 6, 0, 0], 1, 2⟩) =
      [7, 8, 9].drop (WritableBytes ⟨[5, 6, 0, 0], 1, 2⟩) :=
  readFd_overflow ⟨[5, 6, 0, 0], 1, 2⟩ (by decide) [7, 8, 9] 1
    (by decide) (by decide) (by decide)

theorem length_ReadFd_ok_ge (b : Buffer) (avail : List Nat) :
    b.buffer_.length ≤ (ReadFd b (Except.ok avail)).1.buffer_.length := by
  unfold ReadFd
  dsimp only
  split
  · exact writeAt_length_ge _ _ _
  · dsimp only
    refine Nat.le_trans ?_ (length_Append_ge _ _)
    exact writeAt_length_ge _ _ _

/-- C9: no operation shrinks the backing store: `Append`, `MakeSpace_`,
`EnsureWriteable` and `ReadFd` can only grow it, while `HasWritten`,
`Retrieve`, `WriteFd`, `RetrieveAll` and `RetrieveAllToStr` keep its
length unchanged; `RetrieveAll` zeroes the store and resets both cursors
to 0 at the same length. -/
theorem capacity_monotone (b b' : Buffer) (len accept e : Nat)
    (data avail : List Nat) :
    b.buffer_.length ≤ (Append b data).buffer_.length ∧
    b.buffer_.length ≤ (MakeSpace_ b len).buffer_.length ∧
    b.buffer_.length ≤ (EnsureWriteable b len).buffer_.length ∧
    (HasWritten b len).buffer_.length = b.buffer_.length ∧
    (Retrieve b len = some b' → b'.buffer_.length = b.buffer_.length) ∧
    b.buffer_.length ≤ (ReadFd b (Except.ok avail)).1.buffer_.length ∧
    (ReadFd b (Except.error e)).1.buffer_.length = b.buffer_.length ∧
    (WriteFd b (Except.ok accept)).1.buffer_.length = b.buffer_.length ∧
    (WriteFd b (Except.error e)).1.buffer_.length = b.buffer_.length ∧
    RetrieveAll b = ⟨List.replicate b.buffer_.length 0, 0, 0⟩ ∧
    (RetrieveAll b).buffer_.length = b.buffer_.length ∧
    (RetrieveAllToStr b).2.buffer_.length = b.buffer_.length := by
  refine ⟨length_Append_ge b data, length_MakeSpace_ge b len,
    length_EnsureWriteable_ge b len, rfl, ?_,
    length_ReadFd_ok_ge b avail, rfl, rfl, rfl, rfl, ?_, ?_⟩
  · intro h
    obtain ⟨-, hb'⟩ := Retrieve_eq_some h
    subst hb'
    rfl
  · simp [RetrieveAll, List.length_replicate]
  · simp [RetrieveAllToStr, RetrieveAll, List.length_replicate]

theorem capacity_monotone_witness :
    (⟨[7, 0, 0, 0], 1, 1⟩ : Buffer).buffer_.length =
      (⟨[7, 0, 0, 0], 0, 1⟩ : Buffer).buffer_.length ∧
    (⟨[7, 0, 0, 0], 0, 1⟩ : Buffer).buffer_.length ≤
      (Append ⟨[7, 0, 0, 0], 0, 1⟩ [1]).buffer_.length :=
  ⟨(capacity_monotone ⟨[7, 0, 0, 0], 0, 1⟩ ⟨[7, 0, 0, 0], 1, 1⟩ 1 0 9
      [1] [2]).2.2.2.2.1 (by decide),
   (capacity_monotone ⟨[7, 0, 0, 0], 0, 1⟩ ⟨[7, 0, 0, 0], 1, 1⟩ 1 0 9
      [1] [2]).1⟩

end WebServer
